import Mathlib

/-!
Verification of the chained hash-table symbol table in `src/symtablehash.c`.

Shallow embedding conventions:
* a C string key is a `List Nat` of its characters (the bytes before the
  terminating `NUL`; the terminator itself is not represented);
* a `void *` value is a `Nat` holding the pointer's numeric value, with `0`
  standing for `NULL`;
* `unsigned int` arithmetic wraps modulo `2 ^ 32` where overflow can occur
  (only in the hash accumulation);
* a bucket (`struct abind *` chain) is a `List abind`, the bucket array is a
  `List (List abind)` whose length is the bucket count;
* the C functions that return `int` booleans return `Nat` (`0` or `1`).
-/

namespace SymTableHash

/-- `struct abind`: one binding, a key/value pair.  The `next` pointer of the
C struct is represented by the position in the bucket's `List abind`. -/
structure abind where
  key : List Nat
  value : Nat
deriving DecidableEq, Repr

/-- `#define HASH_MULTIPLIER 65599` -/
def HASH_MULTIPLIER : Nat := 65599

/-- `#define MAX_BUCKETS 65521` -/
def MAX_BUCKETS : Nat := 65521

/-- `#define MIN_BUCKETS 519` -/
def MIN_BUCKETS : Nat := 519

/-- wraparound modulus of `unsigned int` (32 bits) -/
def UINT_MOD : Nat := 2 ^ 32

/-- `static unsigned const BUCKARR[]` -/
def BUCKARR : List Nat :=
  [MIN_BUCKETS, 1021, 2053, 4093, 8191, 16381, 32771, MAX_BUCKETS]

/-- `struct SymTable`. -/
structure SymTable where
  uiBindings : Nat
  uiBuckets : Nat
  array : List (List abind)
deriving DecidableEq, Repr

/-- `SymTable_hash` (symtablehash.c:57-68): polynomial accumulation
`uiHash = uiHash * HASH_MULTIPLIER + pcKey[ui]` in `unsigned int`
arithmetic, then `uiHash % uiBuckets`. -/
def SymTable_hash (uiBuckets : Nat) (pcKey : List Nat) : Nat :=
  (pcKey.foldl (fun h c => (h * HASH_MULTIPLIER + c) % UINT_MOD) 0) % uiBuckets

/-- The front-insertion step `ptr->next = arr[uiHash]; arr[uiHash] = ptr`
used by both `SymTable_change` (line 108-109) and `SymTable_put`
(line 294-295). -/
def insertFront (arr : List (List abind)) (i : Nat) (b : abind) :
    List (List abind) :=
  arr.set i (b :: arr.getD i [])

/-- `SymTable_change` (symtablehash.c:86-123): allocate a fresh array of
`uiBuckets` empty buckets, then walk every old bucket front to back and push
each binding onto the front of its new bucket (hash under the new count);
finally install the new count and array.  `uiBindings` is not touched. -/
def SymTable_change (t : SymTable) (uiBuckets : Nat) : SymTable :=
  let bind_arr := List.replicate uiBuckets ([] : List abind)
  let newArr := t.array.foldl
    (fun acc chain =>
      chain.foldl (fun a p => insertFront a (SymTable_hash uiBuckets p.key) p) acc)
    bind_arr
  { t with uiBuckets := uiBuckets, array := newArr }

/-- `SymTable_new` (symtablehash.c:135-149): no bindings, `MIN_BUCKETS`
empty buckets. -/
def SymTable_new : SymTable :=
  { uiBindings := 0
    uiBuckets := MIN_BUCKETS
    array := List.replicate MIN_BUCKETS [] }

/-- `SymTable_getLength` (symtablehash.c:192-199). -/
def SymTable_getLength (t : SymTable) : Nat := t.uiBindings

/-- The chain scan of `SymTable_contains` (the `while (ptr)` loop with
`strcmp`). -/
def chainContains (chain : List abind) (k : List Nat) : Bool :=
  chain.any (fun b => b.key == k)

/-- `SymTable_contains` (symtablehash.c:213-233): scan only the bucket of
the key's hash; return `1` on a match, else `0`. -/
def SymTable_contains (t : SymTable) (k : List Nat) : Nat :=
  if chainContains (t.array.getD (SymTable_hash t.uiBuckets k) []) k then 1 else 0

/-- The growth loop of `SymTable_put` (symtablehash.c:270-273):
`while ((uiBindings >= uiBuckets) && (uiBuckets != MAX_BUCKETS))
   uiBuckets = BUCKARR[++idx];`
Since `idx` starts at `0`, the scan always walks `BUCKARR` from index `1`,
which is why it is called here with `BUCKARR.drop 1`. -/
def growScan (uiBindings : Nat) : Nat → List Nat → Nat
  | uiBuckets, [] => uiBuckets
  | uiBuckets, b :: rest =>
    if uiBindings ≥ uiBuckets ∧ uiBuckets ≠ MAX_BUCKETS then
      growScan uiBindings b rest
    else uiBuckets

/-- `SymTable_put` (symtablehash.c:253-299): return `0` untouched if the key
is already present; otherwise run the growth loop, resize if the target
count differs, and push the new binding onto the front of the bucket given
by the hash under the (possibly new) bucket count, incrementing
`uiBindings`.  Returns the new table and the C `int` result. -/
def SymTable_put (t : SymTable) (k : List Nat) (v : Nat) : SymTable × Nat :=
  if SymTable_contains t k ≠ 0 then (t, 0)
  else
    let uiBuckets := growScan t.uiBindings t.uiBuckets (BUCKARR.drop 1)
    let t1 := if uiBuckets ≠ t.uiBuckets then SymTable_change t uiBuckets else t
    let uiHash := SymTable_hash uiBuckets k
    ({ t1 with
        array := insertFront t1.array uiHash ⟨k, v⟩
        uiBindings := t1.uiBindings + 1 }, 1)

/-- The chain scan of `SymTable_get`: first match wins, `NULL` (here `0`)
when the chain is exhausted. -/
def chainGet (chain : List abind) (k : List Nat) : Nat :=
  match chain with
  | [] => 0
  | b :: rest => if b.key == k then b.value else chainGet rest k

/-- `SymTable_get` (symtablehash.c:344-364): scan only the bucket of the
key's hash; return the stored value pointer, or `NULL` (`0`) if absent. -/
def SymTable_get (t : SymTable) (k : List Nat) : Nat :=
  chainGet (t.array.getD (SymTable_hash t.uiBuckets k) []) k

/-- The chain scan of `SymTable_remove`: unlink the first binding whose key
matches, report whether one was found. -/
def chainRemove (chain : List abind) (k : List Nat) : List abind × Bool :=
  match chain with
  | [] => ([], false)
  | b :: rest =>
    if b.key == k then (rest, true)
    else
      let r := chainRemove rest k
      (b :: r.1, r.2)

/-- `SymTable_remove` (symtablehash.c:378-415): scan only the bucket of the
key's hash; on a match unlink that node and decrement `uiBindings`
(which is at least `1` in any consistent state where a match exists),
returning `1`; otherwise return `0` with the table untouched. -/
def SymTable_remove (t : SymTable) (k : List Nat) : SymTable × Nat :=
  let uiHash := SymTable_hash t.uiBuckets k
  let r := chainRemove (t.array.getD uiHash []) k
  if r.2 then
    ({ t with array := t.array.set uiHash r.1, uiBindings := t.uiBindings - 1 }, 1)
  else (t, 0)

/-- The `non_empty` accumulator of the `SymTable_stats` loop
(symtablehash.c:432-448): one increment per bucket whose head pointer is
non-null. -/
def statsNonEmpty (t : SymTable) : Nat :=
  t.array.countP (fun c => !c.isEmpty)

/-- The `max_bindings` accumulator of the `SymTable_stats` loop: the chain
length count of the `while (ptr)` walk, folded through the running max. -/
def statsMax (t : SymTable) : Nat :=
  t.array.foldl (fun m c => if c.length > m then c.length else m) 0

/-- The `min_bindings` accumulator of the `SymTable_stats` loop
(initialised to `uiBindings` at line 431). -/
def statsMin (t : SymTable) : Nat :=
  t.array.foldl (fun m c => if c.length < m then c.length else m) t.uiBindings

/-- `SymTable_stats` (symtablehash.c:421-452).  The returned quadruple is
`(max_bindings, min_bindings, numerator, divisor)` where the last two are
the operands of the floating-point division
`symtable->uiBindings / (float) non_empty` that line 451 performs
unconditionally (the printing itself is outside the model). -/
def SymTable_stats (t : SymTable) : Nat × Nat × Nat × Nat :=
  (statsMax t, statsMin t, t.uiBindings, statsNonEmpty t)

/-- The divisor of the average-chain-length division in `SymTable_stats`. -/
def statsDivisor (t : SymTable) : Nat := (SymTable_stats t).2.2.2

/-- The numerator of the average-chain-length division in
`SymTable_stats`. -/
def statsNumerator (t : SymTable) : Nat := (SymTable_stats t).2.2.1

/- ==== model-level definitions ==== -/

/-- The binding `SymTable_get`/`SymTable_contains` would find: the first
match in the bucket selected by the key's hash. -/
def tableFind (t : SymTable) (k : List Nat) : Option abind :=
  (t.array.getD (SymTable_hash t.uiBuckets k) []).find? (fun b => b.key == k)

/-- All bindings of the table whose key is `k`, in bucket-array order. -/
def keyBinds (t : SymTable) (k : List Nat) : List abind :=
  t.array.flatten.filter (fun b => b.key == k)

/-- Structural consistency of a table state: the array has `uiBuckets`
buckets, the bucket count is positive, `uiBindings` is the sum of the chain
lengths, every binding sits in the bucket its key hashes to under the
current bucket count, and no key occurs in more than one binding. -/
def Inv (t : SymTable) : Prop :=
  t.array.length = t.uiBuckets ∧
  0 < t.uiBuckets ∧
  t.uiBindings = (t.array.map List.length).sum ∧
  (∀ i ∈ List.range t.array.length,
    ∀ b ∈ t.array.getD i [], SymTable_hash t.uiBuckets b.key = i) ∧
  (∀ b ∈ t.array.flatten,
    (t.array.flatten.filter (fun x => x.key == b.key)).length ≤ 1)

instance (t : SymTable) : Decidable (Inv t) := by
  unfold Inv
  exact inferInstance

/-- The table states reachable through the public interface: the fresh
table, and anything obtained by `SymTable_put` or `SymTable_remove` —
including the intermediate state `SymTable_put` creates when its growth
loop makes it call `SymTable_change`. -/
inductive Reachable : SymTable → Prop
  | new : Reachable SymTable_new
  | put (t : SymTable) (k : List Nat) (v : Nat) :
      Reachable t → Reachable (SymTable_put t k v).1
  | remove (t : SymTable) (k : List Nat) :
      Reachable t → Reachable (SymTable_remove t k).1
  | mid (t : SymTable) :
      Reachable t →
      Reachable (SymTable_change t (growScan t.uiBindings t.uiBuckets (BUCKARR.drop 1)))

/-- Modelled from the spec (section 4.1), for comparison with
`SymTable_hash`: start at 0, for each character `c` of the key in order
compute `hash = hash * 65599 + c` with unsigned wraparound arithmetic at
the 32-bit word width, then reduce the final value modulo the bucket
count. -/
def hashSpecAccum : Nat → List Nat → Nat
  | h, [] => h
  | h, c :: rest => hashSpecAccum ((h * 65599 + c) % 2 ^ 32) rest

/-- Modelled from the spec (section 4.1): the reference hash. -/
def hashSpec (uiBuckets : Nat) (pcKey : List Nat) : Nat :=
  hashSpecAccum 0 pcKey % uiBuckets

/- ==== concrete tables used by witnesses and counterexamples ==== -/

/-- A one-binding table (bucket count 1), used as a small witness state. -/
def tinyT : SymTable :=
  { uiBindings := 1, uiBuckets := 1, array := [[⟨[1], 7⟩]] }

/-- The table holding the single binding `key [1] ↦ NULL` (value `0`). -/
def tNull : SymTable := (SymTable_put SymTable_new [1] 0).1

/-- Insert a sequence of key/value pairs left to right with
`SymTable_put`, keeping only the table. -/
def putList (t : SymTable) (kvs : List (List Nat × Nat)) : SymTable :=
  kvs.foldl (fun t kv => (SymTable_put t kv.1 kv.2).1) t

/-- 519 pairwise-distinct two-character keys, each paired with value `0`. -/
def kvs519 : List (List Nat × Nat) :=
  (List.range 519).map (fun n => ([1 + n / 256, 1 + n % 256], 0))

/-- The table after inserting the 519 distinct keys of `kvs519` into a
fresh table. -/
def t519 : SymTable := putList SymTable_new kvs519

/- ==== general list lemmas used throughout ==== -/

theorem getD_eq_default {α : Type} :
    ∀ (l : List α) (i : Nat) (d : α), l.length ≤ i → l.getD i d = d := by
  intro l
  induction l with
  | nil => intro i d _; cases i <;> rfl
  | cons a l ih =>
      intro i d h
      cases i with
      | zero => simp at h
      | succ j => exact ih j d (Nat.le_of_succ_le_succ h)

theorem getD_set_self {α : Type} :
    ∀ (l : List α) (i : Nat) (x d : α), i < l.length → (l.set i x).getD i d = x := by
  intro l
  induction l with
  | nil => intro i x d h; simp at h
  | cons a l ih =>
      intro i x d h
      cases i with
      | zero => rfl
      | succ j => exact ih j x d (Nat.lt_of_succ_lt_succ h)

theorem getD_set_ne {α : Type} :
    ∀ (l : List α) (i j : Nat) (x d : α), j ≠ i → (l.set i x).getD j d = l.getD j d := by
  intro l
  induction l with
  | nil => intro i j x d _; cases j <;> rfl
  | cons a l ih =>
      intro i j x d h
      cases i with
      | zero =>
          cases j with
          | zero => exact absurd rfl h
          | succ j' => rfl
      | succ i' =>
          cases j with
          | zero => rfl
          | succ j' => exact ih i' j' x d (fun e => h (by rw [e]))

theorem set_decomp {α : Type} :
    ∀ (l : List α) (i : Nat) (d : α), i < l.length →
      ∃ pre post, pre.length = i ∧ l = pre ++ l.getD i d :: post ∧
        ∀ c, l.set i c = pre ++ c :: post := by
  intro l
  induction l with
  | nil => intro i d h; simp at h
  | cons a l ih =>
      intro i d h
      cases i with
      | zero => exact ⟨[], l, rfl, rfl, fun c => rfl⟩
      | succ j =>
          obtain ⟨pre, post, hlen, hdec, hset⟩ := ih j d (Nat.lt_of_succ_lt_succ h)
          refine ⟨a :: pre, post, by simp [hlen], ?_, ?_⟩
          · show a :: l = a :: pre ++ _ :: post
            rw [List.cons_append]
            exact congrArg (a :: ·) hdec
          · intro c
            show a :: l.set j c = a :: pre ++ c :: post
            rw [List.cons_append]
            exact congrArg (a :: ·) (hset c)

theorem mem_getD_flatten {α : Type} (L : List (List α)) (i : Nat) (b : α)
    (h : b ∈ L.getD i []) : b ∈ L.flatten := by
  by_cases hi : i < L.length
  · rw [List.getD_eq_getElem _ _ hi] at h
    exact List.mem_flatten.mpr ⟨L[i], List.getElem_mem hi, h⟩
  · rw [getD_eq_default L i [] (Nat.le_of_not_lt hi)] at h
    simp at h

theorem exists_index_of_mem_flatten {α : Type} (L : List (List α)) (b : α)
    (h : b ∈ L.flatten) : ∃ i, i < L.length ∧ b ∈ L.getD i [] := by
  obtain ⟨c, hc, hb⟩ := List.mem_flatten.mp h
  obtain ⟨i, hi, hgi⟩ := List.mem_iff_getElem.mp hc
  refine ⟨i, hi, ?_⟩
  rw [List.getD_eq_getElem _ _ hi, hgi]
  exact hb

theorem flatten_replicate_nil {α : Type} :
    ∀ n : Nat, (List.replicate n ([] : List α)).flatten = [] := by
  intro n
  induction n with
  | zero => rfl
  | succ m ih => simp [List.replicate_succ, ih]

theorem perm_eq_of_length_le_one {α : Type} {l₁ l₂ : List α}
    (h : List.Perm l₁ l₂) (hl : l₁.length ≤ 1) : l₁ = l₂ := by
  match l₁, hl with
  | [], _ => rw [(h.symm).eq_nil]
  | [a], _ => rw [List.perm_singleton.mp h.symm]

/- ==== the hash function ==== -/

theorem hash_lt (uiBuckets : Nat) (pcKey : List Nat) (h : 0 < uiBuckets) :
    SymTable_hash uiBuckets pcKey < uiBuckets :=
  Nat.mod_lt _ h

theorem hash_nil (uiBuckets : Nat) : SymTable_hash uiBuckets [] = 0 :=
  Nat.zero_mod uiBuckets

theorem foldl_eq_hashSpecAccum :
    ∀ (l : List Nat) (h0 : Nat),
      l.foldl (fun h c => (h * HASH_MULTIPLIER + c) % UINT_MOD) h0 =
        hashSpecAccum h0 l := by
  intro l
  induction l with
  | nil => intro h0; rfl
  | cons c rest ih =>
      intro h0
      show rest.foldl _ ((h0 * HASH_MULTIPLIER + c) % UINT_MOD) = _
      rw [ih]
      rfl

/- ==== BUCKARR and the growth loop ==== -/

theorem BUCKARR_pos : ∀ x ∈ BUCKARR, 0 < x := by decide

theorem BUCKARR_lt_max : ∀ x ∈ BUCKARR, x ≠ MAX_BUCKETS → x < MAX_BUCKETS := by
  decide

theorem BUCKARR_tail_subset : ∀ x ∈ BUCKARR.drop 1, x ∈ BUCKARR := by decide

theorem max_mem_tail : MAX_BUCKETS ∈ BUCKARR.drop 1 := by decide

theorem growScan_no_grow (bds : Nat) :
    ∀ (ub : Nat) (l : List Nat), bds < ub → growScan bds ub l = ub := by
  intro ub l h
  cases l with
  | nil => rfl
  | cons b rest =>
      show (if bds ≥ ub ∧ ub ≠ MAX_BUCKETS then growScan bds b rest else ub) = ub
      rw [if_neg]
      intro hc
      exact absurd hc.1 (Nat.not_le_of_lt h)

theorem growScan_mem (bds : Nat) :
    ∀ (l : List Nat) (ub : Nat), ub ∈ BUCKARR → (∀ x ∈ l, x ∈ BUCKARR) →
      growScan bds ub l ∈ BUCKARR := by
  intro l
  induction l with
  | nil => intro ub hub _; exact hub
  | cons b rest ih =>
      intro ub hub hl
      show (if bds ≥ ub ∧ ub ≠ MAX_BUCKETS then growScan bds b rest else ub) ∈ BUCKARR
      by_cases hc : bds ≥ ub ∧ ub ≠ MAX_BUCKETS
      · rw [if_pos hc]
        exact ih b (hl b (List.mem_cons_self b rest))
          (fun x hx => hl x (List.mem_cons_of_mem b hx))
      · rw [if_neg hc]
        exact hub

theorem growScan_pos (bds : Nat) :
    ∀ (l : List Nat) (ub : Nat), 0 < ub → (∀ x ∈ l, 0 < x) →
      0 < growScan bds ub l := by
  intro l
  induction l with
  | nil => intro ub hub _; exact hub
  | cons b rest ih =>
      intro ub hub hl
      show 0 < (if bds ≥ ub ∧ ub ≠ MAX_BUCKETS then growScan bds b rest else ub)
      by_cases hc : bds ≥ ub ∧ ub ≠ MAX_BUCKETS
      · rw [if_pos hc]
        exact ih b (hl b (List.mem_cons_self b rest))
          (fun x hx => hl x (List.mem_cons_of_mem b hx))
      · rw [if_neg hc]
        exact hub

theorem growScan_spec (bds : Nat) :
    ∀ (l : List Nat) (ub : Nat), MAX_BUCKETS ∈ ub :: l →
      bds < growScan bds ub l ∨ growScan bds ub l = MAX_BUCKETS := by
  intro l
  induction l with
  | nil =>
      intro ub hmem
      have : ub = MAX_BUCKETS := by
        rcases List.mem_cons.mp hmem with h | h
        · exact h.symm
        · simp at h
      exact Or.inr this
  | cons b rest ih =>
      intro ub hmem
      show bds < (if bds ≥ ub ∧ ub ≠ MAX_BUCKETS then growScan bds b rest else ub) ∨
        (if bds ≥ ub ∧ ub ≠ MAX_BUCKETS then growScan bds b rest else ub) = MAX_BUCKETS
      by_cases hc : bds ≥ ub ∧ ub ≠ MAX_BUCKETS
      · rw [if_pos hc]
        apply ih
        rcases List.mem_cons.mp hmem with h | h
        · exact absurd h.symm hc.2
        · exact h
      · rw [if_neg hc]
        rcases Decidable.not_and_iff_or_not.mp hc with h | h
        · exact Or.inl (Nat.lt_of_not_le h)
        · exact Or.inr (Decidable.not_not.mp h)

theorem growScan_next (ub : Nat) (hmem : ub ∈ BUCKARR) (hne : ub ≠ MAX_BUCKETS) :
    ∃ i, i + 1 < BUCKARR.length ∧ BUCKARR.getD i 0 = ub ∧
      growScan ub ub (BUCKARR.drop 1) = BUCKARR.getD (i + 1) 0 ∧
      ub < BUCKARR.getD (i + 1) 0 := by
  have hmem' : ub = 519 ∨ ub = 1021 ∨ ub = 2053 ∨ ub = 4093 ∨ ub = 8191 ∨
      ub = 16381 ∨ ub = 32771 ∨ ub = 65521 := by
    simpa [BUCKARR, MIN_BUCKETS, MAX_BUCKETS] using hmem
  rcases hmem' with h | h | h | h | h | h | h | h
  · subst h; exact ⟨0, by decide, by decide, by decide, by decide⟩
  · subst h; exact ⟨1, by decide, by decide, by decide, by decide⟩
  · subst h; exact ⟨2, by decide, by decide, by decide, by decide⟩
  · subst h; exact ⟨3, by decide, by decide, by decide, by decide⟩
  · subst h; exact ⟨4, by decide, by decide, by decide, by decide⟩
  · subst h; exact ⟨5, by decide, by decide, by decide, by decide⟩
  · subst h; exact ⟨6, by decide, by decide, by decide, by decide⟩
  · subst h; exact absurd rfl hne

/- ==== insertFront and the rehash fold ==== -/

theorem insertFront_length (arr : List (List abind)) (i : Nat) (b : abind) :
    (insertFront arr i b).length = arr.length :=
  List.length_set arr i _

theorem insertFront_flatten_perm (arr : List (List abind)) (i : Nat) (b : abind)
    (h : i < arr.length) :
    List.Perm ((insertFront arr i b).flatten) (b :: arr.flatten) := by
  obtain ⟨pre, post, _, hdec, hset⟩ := set_decomp arr i [] h
  have h1 : insertFront arr i b = pre ++ (b :: arr.getD i []) :: post := hset _
  rw [h1]
  conv_rhs => rw [hdec]
  simp only [List.flatten_append, List.flatten_cons, List.cons_append,
    List.append_assoc]
  exact List.perm_middle

theorem insertFront_getD (arr : List (List abind)) (i : Nat) (b : abind)
    (j : Nat) (h : i < arr.length) :
    (insertFront arr i b).getD j [] =
      if j = i then b :: arr.getD i [] else arr.getD j [] := by
  by_cases hj : j = i
  · rw [hj, if_pos rfl]
    exact getD_set_self arr i _ [] h
  · rw [if_neg hj]
    exact getD_set_ne arr i j _ [] hj

theorem sum_insertFront (arr : List (List abind)) (i : Nat) (b : abind)
    (h : i < arr.length) :
    ((insertFront arr i b).map List.length).sum = (arr.map List.length).sum + 1 := by
  obtain ⟨pre, post, _, hdec, hset⟩ := set_decomp arr i [] h
  have h1 : insertFront arr i b = pre ++ (b :: arr.getD i []) :: post := hset _
  rw [h1]
  conv_rhs => rw [hdec]
  simp only [List.map_append, List.sum_append, List.map_cons, List.sum_cons,
    List.length_cons]
  omega

theorem foldl_buckets {α β : Type} (f : β → α → β) :
    ∀ (L : List (List α)) (a : β),
      L.foldl (fun acc chain => chain.foldl f acc) a = L.flatten.foldl f a := by
  intro L
  induction L with
  | nil => intro a; rfl
  | cons c L ih =>
      intro a
      show L.foldl _ (c.foldl f a) = ((c ++ L.flatten).foldl f a)
      rw [List.foldl_append]
      exact ih _

theorem change_array_eq (t : SymTable) (n : Nat) :
    (SymTable_change t n).array =
      t.array.flatten.foldl (fun a p => insertFront a (SymTable_hash n p.key) p)
        (List.replicate n ([] : List abind)) :=
  foldl_buckets _ t.array _

theorem chFold_length (n : Nat) :
    ∀ (l : List abind) (a : List (List abind)),
      (l.foldl (fun a p => insertFront a (SymTable_hash n p.key) p) a).length =
        a.length := by
  intro l
  induction l with
  | nil => intro a; rfl
  | cons p l ih =>
      intro a
      show (l.foldl _ (insertFront a (SymTable_hash n p.key) p)).length = _
      rw [ih]
      exact insertFront_length a _ p

theorem chFold_perm (n : Nat) (hn : 0 < n) :
    ∀ (l : List abind) (a : List (List abind)), a.length = n →
      List.Perm
        ((l.foldl (fun a p => insertFront a (SymTable_hash n p.key) p) a).flatten)
        (l ++ a.flatten) := by
  intro l
  induction l with
  | nil => intro a _; exact List.Perm.refl _
  | cons p l ih =>
      intro a ha
      show List.Perm ((l.foldl _ (insertFront a (SymTable_hash n p.key) p)).flatten) _
      have hlen : (insertFront a (SymTable_hash n p.key) p).length = n := by
        rw [insertFront_length]; exact ha
      have hidx : SymTable_hash n p.key < a.length := by
        rw [ha]; exact hash_lt n p.key hn
      refine ((ih _ hlen).trans ?_)
      refine (List.Perm.append_left l (insertFront_flatten_perm a _ p hidx)).trans ?_
      exact List.perm_middle

theorem chFold_hashinv (n : Nat) (hn : 0 < n) :
    ∀ (l : List abind) (a : List (List abind)), a.length = n →
      (∀ j, j < n → ∀ x ∈ a.getD j [], SymTable_hash n x.key = j) →
      ∀ j, j < n →
        ∀ x ∈ (l.foldl (fun a p => insertFront a (SymTable_hash n p.key) p) a).getD j [],
          SymTable_hash n x.key = j := by
  intro l
  induction l with
  | nil => intro a _ hbase; exact hbase
  | cons p l ih =>
      intro a ha hbase
      have hlen : (insertFront a (SymTable_hash n p.key) p).length = n := by
        rw [insertFront_length]; exact ha
      have hidx : SymTable_hash n p.key < a.length := by
        rw [ha]; exact hash_lt n p.key hn
      refine ih _ hlen ?_
      intro j hj x hx
      rw [insertFront_getD a _ p j hidx] at hx
      by_cases hji : j = SymTable_hash n p.key
      · rw [if_pos hji] at hx
        rcases List.mem_cons.mp hx with hx | hx
        · rw [hx, hji]
        · rw [← hji] at hx
          exact hbase j hj x hx
      · rw [if_neg hji] at hx
        exact hbase j hj x hx

/- ==== consequences of the invariant ==== -/

theorem keyBinds_def (t : SymTable) (k : List Nat) :
    keyBinds t k = t.array.flatten.filter (fun b => b.key == k) := rfl

theorem uniq_all (t : SymTable) (ht : Inv t) (k : List Nat) :
    (keyBinds t k).length ≤ 1 := by
  obtain ⟨_, _, _, _, huniq⟩ := ht
  cases hkb : keyBinds t k with
  | nil => simp
  | cons b rest =>
      have hb : b ∈ keyBinds t k := by
        rw [hkb]; exact List.mem_cons_self b rest
      obtain ⟨hbf, hbk⟩ := List.mem_filter.mp hb
      have hkey : b.key = k := by simpa using hbk
      have h1 := huniq b hbf
      rw [hkey] at h1
      rw [keyBinds_def t k] at hkb
      rw [hkb] at h1
      exact h1

theorem mem_bucket_of_key (t : SymTable) (ht : Inv t) (b : abind) (k : List Nat)
    (hb : b ∈ t.array.flatten) (hk : b.key = k) :
    b ∈ t.array.getD (SymTable_hash t.uiBuckets k) [] := by
  obtain ⟨_, _, _, hhash, _⟩ := ht
  obtain ⟨i, hi, hmem⟩ := exists_index_of_mem_flatten _ _ hb
  have hix := hhash i (List.mem_range.mpr hi) b hmem
  rw [hk] at hix
  rw [hix]
  exact hmem

theorem tableFind_eq (t : SymTable) (ht : Inv t) (k : List Nat) :
    tableFind t k = (keyBinds t k).head? := by
  cases hkb : keyBinds t k with
  | nil =>
      show (t.array.getD (SymTable_hash t.uiBuckets k) []).find?
        (fun b => b.key == k) = none
      apply List.find?_eq_none.mpr
      intro x hx hpx
      have hxk : x ∈ keyBinds t k :=
        List.mem_filter.mpr ⟨mem_getD_flatten _ _ _ hx, hpx⟩
      rw [hkb] at hxk
      simp at hxk
  | cons b rest =>
      have hb : b ∈ keyBinds t k := by
        rw [hkb]; exact List.mem_cons_self b rest
      obtain ⟨hbf, hbk⟩ := List.mem_filter.mp hb
      have hkey : b.key = k := by simpa using hbk
      have hbbucket : b ∈ t.array.getD (SymTable_hash t.uiBuckets k) [] :=
        mem_bucket_of_key t ht b k hbf hkey
      have hrest : rest = [] := by
        have hlen1 := uniq_all t ht k
        rw [hkb] at hlen1
        cases rest with
        | nil => rfl
        | cons c cs => simp at hlen1
      obtain ⟨y, hy⟩ :
          ∃ y, (t.array.getD (SymTable_hash t.uiBuckets k) []).find?
            (fun b => b.key == k) = some y := by
        cases hf : (t.array.getD (SymTable_hash t.uiBuckets k) []).find?
            (fun b => b.key == k) with
        | none => exact absurd hbk (List.find?_eq_none.mp hf b hbbucket)
        | some y => exact ⟨y, rfl⟩
      have hyk : y.key = k := by simpa using List.find?_some hy
      have hymem := List.mem_of_find?_eq_some hy
      have hyf : y ∈ keyBinds t k :=
        List.mem_filter.mpr ⟨mem_getD_flatten _ _ _ hymem, by simp [hyk]⟩
      rw [hkb, hrest] at hyf
      have hyb : y = b := by simpa using hyf
      show (t.array.getD (SymTable_hash t.uiBuckets k) []).find?
        (fun b => b.key == k) = (b :: rest).head?
      rw [hy, hyb]
      rfl

theorem chainContains_eq :
    ∀ (c : List abind) (k : List Nat),
      chainContains c k = (c.find? (fun b => b.key == k)).isSome := by
  intro c
  induction c with
  | nil => intro k; rfl
  | cons b rest ih =>
      intro k
      cases hb : (b.key == k) with
      | true =>
          rw [List.find?_cons_of_pos rest hb]
          simp [chainContains, List.any_cons, hb]
      | false =>
          rw [List.find?_cons_of_neg rest (by simp [hb])]
          show ((b.key == k) || rest.any (fun x => x.key == k)) =
            (rest.find? (fun b => b.key == k)).isSome
          rw [hb, Bool.false_or]
          exact ih k

theorem chainGet_eq :
    ∀ (c : List abind) (k : List Nat),
      chainGet c k = (((c.find? (fun b => b.key == k)).map abind.value).getD 0) := by
  intro c
  induction c with
  | nil => intro k; rfl
  | cons b rest ih =>
      intro k
      cases hb : (b.key == k) with
      | true =>
          rw [List.find?_cons_of_pos rest hb]
          simp [chainGet, hb]
      | false =>
          rw [List.find?_cons_of_neg rest (by simp [hb])]
          show (if (b.key == k) = true then b.value else chainGet rest k) = _
          rw [hb]
          simp only [Bool.false_eq_true, if_false]
          exact ih k

theorem get_eq (t : SymTable) (ht : Inv t) (k : List Nat) :
    SymTable_get t k = (((keyBinds t k).head?).map abind.value).getD 0 := by
  show chainGet _ _ = _
  rw [chainGet_eq]
  have : (t.array.getD (SymTable_hash t.uiBuckets k) []).find?
      (fun b => b.key == k) = tableFind t k := rfl
  rw [this, tableFind_eq t ht k]

theorem contains_eq (t : SymTable) (ht : Inv t) (k : List Nat) :
    SymTable_contains t k = if keyBinds t k = [] then 0 else 1 := by
  show (if chainContains _ _ then 1 else 0) = _
  rw [chainContains_eq]
  have : (t.array.getD (SymTable_hash t.uiBuckets k) []).find?
      (fun b => b.key == k) = tableFind t k := rfl
  rw [this, tableFind_eq t ht k]
  cases keyBinds t k with
  | nil => simp
  | cons b rest => simp

/- ==== the fresh table ==== -/

theorem getD_replicate_nil {α : Type} (n i : Nat) :
    (List.replicate n ([] : List α)).getD i [] = [] := by
  by_cases hi : i < n
  · rw [List.getD_eq_getElem _ _ (by simpa using hi)]
    exact List.getElem_replicate _ _
  · exact getD_eq_default _ i [] (by simpa using Nat.le_of_not_lt hi)

theorem inv_new : Inv SymTable_new := by
  refine ⟨List.length_replicate _ _, by decide, ?_, ?_, ?_⟩
  · show (0 : Nat) = ((List.replicate MIN_BUCKETS ([] : List abind)).map
      List.length).sum
    simp [List.map_replicate]
  · intro i _ b hb
    rw [show SymTable_new.array = List.replicate MIN_BUCKETS [] from rfl,
      getD_replicate_nil] at hb
    simp at hb
  · intro b hb
    rw [show SymTable_new.array = List.replicate MIN_BUCKETS [] from rfl,
      flatten_replicate_nil] at hb
    simp at hb

theorem keyBinds_new (k : List Nat) : keyBinds SymTable_new k = [] := by
  rw [keyBinds_def,
    show SymTable_new.array = List.replicate MIN_BUCKETS [] from rfl,
    flatten_replicate_nil]
  rfl

/- ==== SymTable_change preserves the table ==== -/

theorem change_spec (t : SymTable) (b : Nat) (ht : Inv t) (hb : 0 < b) :
    Inv (SymTable_change t b) ∧
    (SymTable_change t b).uiBindings = t.uiBindings ∧
    (SymTable_change t b).uiBuckets = b ∧
    List.Perm ((SymTable_change t b).array.flatten) t.array.flatten ∧
    (∀ k, keyBinds (SymTable_change t b) k = keyBinds t k) := by
  obtain ⟨hlen0, hpos0, hsum0, hhash0, huniq0⟩ := ht
  have hinit : (List.replicate b ([] : List abind)).length = b :=
    List.length_replicate b []
  have hlen : (SymTable_change t b).array.length = b := by
    rw [change_array_eq, chFold_length]
    exact hinit
  have hperm : List.Perm ((SymTable_change t b).array.flatten) t.array.flatten := by
    rw [change_array_eq]
    have h1 := chFold_perm b hb t.array.flatten _ hinit
    rw [flatten_replicate_nil, List.append_nil] at h1
    exact h1
  have hsum : (SymTable_change t b).uiBindings =
      ((SymTable_change t b).array.map List.length).sum := by
    show t.uiBindings = _
    rw [hsum0, ← List.length_flatten, ← List.length_flatten]
    exact (hperm.length_eq).symm
  have hhash : ∀ i ∈ List.range (SymTable_change t b).array.length,
      ∀ x ∈ (SymTable_change t b).array.getD i [],
        SymTable_hash (SymTable_change t b).uiBuckets x.key = i := by
    intro i hi x hx
    rw [List.mem_range, hlen] at hi
    show SymTable_hash b x.key = i
    rw [change_array_eq] at hx
    refine chFold_hashinv b hb t.array.flatten _ hinit ?_ i hi x hx
    intro j _ y hy
    rw [getD_replicate_nil] at hy
    simp at hy
  have huniq : ∀ x ∈ (SymTable_change t b).array.flatten,
      ((SymTable_change t b).array.flatten.filter
        (fun y => y.key == x.key)).length ≤ 1 := by
    intro x hx
    have hx' : x ∈ t.array.flatten := hperm.mem_iff.mp hx
    rw [(hperm.filter _).length_eq]
    exact huniq0 x hx'
  have htI : Inv t := ⟨hlen0, hpos0, hsum0, hhash0, huniq0⟩
  have hkb : ∀ k, keyBinds (SymTable_change t b) k = keyBinds t k := by
    intro k
    have hp : List.Perm (keyBinds (SymTable_change t b) k) (keyBinds t k) :=
      hperm.filter _
    refine perm_eq_of_length_le_one hp ?_
    rw [hp.length_eq]
    exact uniq_all t htI k
  exact ⟨⟨hlen, hb, hsum, hhash, huniq⟩, rfl, rfl, hperm, hkb⟩

/- ==== SymTable_put ==== -/

theorem put_dup (t : SymTable) (k : List Nat) (v : Nat)
    (h : SymTable_contains t k ≠ 0) : SymTable_put t k v = (t, 0) := by
  show (if SymTable_contains t k ≠ 0 then (t, 0) else _) = (t, 0)
  rw [if_pos h]

theorem insert_step_spec (t1 t2 : SymTable) (k : List Nat) (v : Nat)
    (ht : Inv t1) (hfresh : keyBinds t1 k = [])
    (ht2 : t2 = { t1 with
        array := insertFront t1.array (SymTable_hash t1.uiBuckets k) ⟨k, v⟩
        uiBindings := t1.uiBindings + 1 }) :
    Inv t2 ∧ t2.uiBindings = t1.uiBindings + 1 ∧ t2.uiBuckets = t1.uiBuckets ∧
    keyBinds t2 k = [⟨k, v⟩] ∧
    (∀ k', k' ≠ k → keyBinds t2 k' = keyBinds t1 k') ∧
    ⟨k, v⟩ ∈ t2.array.getD (SymTable_hash t2.uiBuckets k) [] := by
  have htI := ht
  obtain ⟨hlen1, hpos1, hsum1, hhash1, huniq1⟩ := ht
  subst ht2
  have hidx : SymTable_hash t1.uiBuckets k < t1.array.length := by
    rw [hlen1]
    exact hash_lt _ _ hpos1
  have hflat : List.Perm
      ((insertFront t1.array (SymTable_hash t1.uiBuckets k) ⟨k, v⟩).flatten)
      ((⟨k, v⟩ : abind) :: t1.array.flatten) :=
    insertFront_flatten_perm _ _ _ hidx
  have hfilterk : t1.array.flatten.filter (fun y => y.key == k) = [] := hfresh
  have hlen : (insertFront t1.array (SymTable_hash t1.uiBuckets k) ⟨k, v⟩).length =
      t1.uiBuckets := by
    rw [insertFront_length]
    exact hlen1
  have hsum : t1.uiBindings + 1 =
      ((insertFront t1.array (SymTable_hash t1.uiBuckets k) ⟨k, v⟩).map
        List.length).sum := by
    rw [sum_insertFront _ _ _ hidx, ← hsum1]
  have hhash : ∀ i ∈ List.range
      (insertFront t1.array (SymTable_hash t1.uiBuckets k) ⟨k, v⟩).length,
      ∀ x ∈ (insertFront t1.array (SymTable_hash t1.uiBuckets k) ⟨k, v⟩).getD i [],
        SymTable_hash t1.uiBuckets x.key = i := by
    intro i hi x hx
    rw [List.mem_range, insertFront_length] at hi
    rw [insertFront_getD _ _ _ i hidx] at hx
    by_cases hji : i = SymTable_hash t1.uiBuckets k
    · rw [if_pos hji] at hx
      rcases List.mem_cons.mp hx with hx | hx
      · rw [hx, hji]
      · rw [← hji] at hx
        exact hhash1 i (List.mem_range.mpr hi) x hx
    · rw [if_neg hji] at hx
      exact hhash1 i (List.mem_range.mpr hi) x hx
  have hcount : ∀ (k' : List Nat),
      ((insertFront t1.array (SymTable_hash t1.uiBuckets k) ⟨k, v⟩).flatten.filter
        (fun y => y.key == k')).length =
      (((⟨k, v⟩ : abind) :: t1.array.flatten).filter
        (fun y => y.key == k')).length := by
    intro k'
    exact (hflat.filter _).length_eq
  have huniq : ∀ x ∈ (insertFront t1.array (SymTable_hash t1.uiBuckets k)
      ⟨k, v⟩).flatten,
      ((insertFront t1.array (SymTable_hash t1.uiBuckets k) ⟨k, v⟩).flatten.filter
        (fun y => y.key == x.key)).length ≤ 1 := by
    intro x hx
    rw [hcount x.key]
    by_cases hxk : x.key = k
    · rw [hxk, List.filter_cons_of_pos (by simp), hfilterk]
      simp
    · rw [List.filter_cons_of_neg (by
        intro hc
        exact hxk ((by simpa using hc : k = x.key)).symm)]
      have hx' : x ∈ (⟨k, v⟩ : abind) :: t1.array.flatten := hflat.mem_iff.mp hx
      rcases List.mem_cons.mp hx' with hx' | hx'
      · exact absurd (by rw [hx']) hxk
      · exact huniq1 x hx'
  have hkbk : keyBinds
      { t1 with
          array := insertFront t1.array (SymTable_hash t1.uiBuckets k) ⟨k, v⟩
          uiBindings := t1.uiBindings + 1 } k = [⟨k, v⟩] := by
    rw [keyBinds_def]
    apply List.perm_singleton.mp
    refine (hflat.filter _).trans ?_
    rw [List.filter_cons_of_pos (by simp), hfilterk]
  have hkbo : ∀ k', k' ≠ k → keyBinds
      { t1 with
          array := insertFront t1.array (SymTable_hash t1.uiBuckets k) ⟨k, v⟩
          uiBindings := t1.uiBindings + 1 } k' = keyBinds t1 k' := by
    intro k' hk'
    have hp : List.Perm (keyBinds
        { t1 with
            array := insertFront t1.array (SymTable_hash t1.uiBuckets k) ⟨k, v⟩
            uiBindings := t1.uiBindings + 1 } k') (keyBinds t1 k') := by
      rw [keyBinds_def, keyBinds_def]
      refine (hflat.filter _).trans ?_
      rw [List.filter_cons_of_neg (by
        intro hc
        exact hk' ((by simpa using hc : k = k')).symm)]
    refine perm_eq_of_length_le_one hp ?_
    rw [hp.length_eq]
    exact uniq_all t1 htI k'
  have hmem : (⟨k, v⟩ : abind) ∈
      (insertFront t1.array (SymTable_hash t1.uiBuckets k) ⟨k, v⟩).getD
        (SymTable_hash t1.uiBuckets k) [] := by
    rw [insertFront_getD _ _ _ _ hidx, if_pos rfl]
    exact List.mem_cons_self _ _
  exact ⟨⟨hlen, hpos1, hsum, hhash, huniq⟩, rfl, rfl, hkbk, hkbo, hmem⟩

theorem put_spec (t : SymTable) (k : List Nat) (v : Nat) (ht : Inv t)
    (hfresh : keyBinds t k = []) :
    (SymTable_put t k v).2 = 1 ∧
    Inv (SymTable_put t k v).1 ∧
    (SymTable_put t k v).1.uiBindings = t.uiBindings + 1 ∧
    (SymTable_put t k v).1.uiBuckets =
      growScan t.uiBindings t.uiBuckets (BUCKARR.drop 1) ∧
    keyBinds (SymTable_put t k v).1 k = [⟨k, v⟩] ∧
    (∀ k', k' ≠ k → keyBinds (SymTable_put t k v).1 k' = keyBinds t k') ∧
    ⟨k, v⟩ ∈ (SymTable_put t k v).1.array.getD
      (SymTable_hash (SymTable_put t k v).1.uiBuckets k) [] := by
  have hcont : SymTable_contains t k = 0 := by
    rw [contains_eq t ht k, if_pos hfresh]
  have hcont' : ¬ SymTable_contains t k ≠ 0 := fun hne => hne hcont
  obtain ⟨t1, ht1I, ht1bind, ht1buck, ht1kb, hputeq⟩ :
      ∃ t1 : SymTable, Inv t1 ∧ t1.uiBindings = t.uiBindings ∧
        t1.uiBuckets = growScan t.uiBindings t.uiBuckets (BUCKARR.drop 1) ∧
        (∀ k', keyBinds t1 k' = keyBinds t k') ∧
        SymTable_put t k v =
          ({ t1 with
              array := insertFront t1.array (SymTable_hash t1.uiBuckets k) ⟨k, v⟩
              uiBindings := t1.uiBindings + 1 }, 1) := by
    by_cases hc : growScan t.uiBindings t.uiBuckets (BUCKARR.drop 1) ≠ t.uiBuckets
    · have hpos : 0 < growScan t.uiBindings t.uiBuckets (BUCKARR.drop 1) := by
        refine growScan_pos _ _ _ ht.2.1 ?_
        intro x hx
        exact BUCKARR_pos x (BUCKARR_tail_subset x hx)
      obtain ⟨hcI, hcbind, hcbuck, _, hckb⟩ := change_spec t _ ht hpos
      refine ⟨SymTable_change t (growScan t.uiBindings t.uiBuckets (BUCKARR.drop 1)),
        hcI, hcbind, hcbuck, hckb, ?_⟩
      show (if SymTable_contains t k ≠ 0 then (t, 0) else _) = _
      rw [if_neg hcont']
      simp only [if_pos hc]
      rfl
    · have heq : growScan t.uiBindings t.uiBuckets (BUCKARR.drop 1) = t.uiBuckets :=
        Decidable.not_not.mp hc
      refine ⟨t, ht, rfl, heq.symm, fun k' => rfl, ?_⟩
      show (if SymTable_contains t k ≠ 0 then (t, 0) else _) = _
      rw [if_neg hcont']
      simp only [if_neg hc]
      rw [heq]
  have hfresh1 : keyBinds t1 k = [] := by
    rw [ht1kb k]
    exact hfresh
  obtain ⟨hI2, hbind2, hbuck2, hkbk2, hkbo2, hmem2⟩ :=
    insert_step_spec t1 _ k v ht1I hfresh1 rfl
  rw [hputeq]
  refine ⟨rfl, hI2, ?_, ?_, hkbk2, ?_, hmem2⟩
  · rw [hbind2, ht1bind]
  · rw [hbuck2, ht1buck]
  · intro k' hk'
    rw [hkbo2 k' hk', ht1kb k']

/- ==== SymTable_remove ==== -/

theorem remove_eq (t : SymTable) (k : List Nat) :
    SymTable_remove t k =
      (if (chainRemove (t.array.getD (SymTable_hash t.uiBuckets k) []) k).2 then
        ({ t with
            array := t.array.set (SymTable_hash t.uiBuckets k)
              (chainRemove (t.array.getD (SymTable_hash t.uiBuckets k) []) k).1
            uiBindings := t.uiBindings - 1 }, 1)
       else (t, 0)) := rfl

theorem chainRemove_not_found :
    ∀ (c : List abind) (k : List Nat), chainContains c k = false →
      chainRemove c k = (c, false) := by
  intro c
  induction c with
  | nil => intro k _; rfl
  | cons b rest ih =>
      intro k h
      cases hb : (b.key == k) with
      | true => simp [chainContains, List.any_cons, hb] at h
      | false =>
          have hrest : chainContains rest k = false := by
            have := h
            simp only [chainContains, List.any_cons, hb, Bool.false_or] at this
            exact this
          show (if (b.key == k) = true then (rest, true)
            else (b :: (chainRemove rest k).1, (chainRemove rest k).2)) = (b :: rest, false)
          rw [hb, ih k hrest]
          simp

theorem chainRemove_found :
    ∀ (c : List abind) (k : List Nat), chainContains c k = true →
      ∃ c₁ bm c₂, c = c₁ ++ bm :: c₂ ∧ bm.key = k ∧
        (∀ x ∈ c₁, (x.key == k) = false) ∧
        chainRemove c k = (c₁ ++ c₂, true) := by
  intro c
  induction c with
  | nil => intro k h; simp [chainContains] at h
  | cons b rest ih =>
      intro k h
      cases hb : (b.key == k) with
      | true =>
          refine ⟨[], b, rest, rfl, by simpa using hb, by simp, ?_⟩
          show (if (b.key == k) = true then (rest, true)
            else (b :: (chainRemove rest k).1, (chainRemove rest k).2)) =
            (([] : List abind) ++ rest, true)
          rw [hb]
          simp
      | false =>
          have hrest : chainContains rest k = true := by
            have := h
            simp only [chainContains, List.any_cons, hb, Bool.false_or] at this
            exact this
          obtain ⟨c₁, bm, c₂, hdec, hbm, hc₁, hrem⟩ := ih k hrest
          refine ⟨b :: c₁, bm, c₂, ?_, hbm, ?_, ?_⟩
          · rw [List.cons_append]
            exact congrArg (b :: ·) hdec
          · intro x hx
            rcases List.mem_cons.mp hx with hx | hx
            · rw [hx]; exact hb
            · exact hc₁ x hx
          · show (if (b.key == k) = true then (rest, true)
              else (b :: (chainRemove rest k).1, (chainRemove rest k).2)) =
              ((b :: c₁) ++ c₂, true)
            rw [hb, hrem]
            simp

theorem remove_absent (t : SymTable) (k : List Nat) (ht : Inv t)
    (h : keyBinds t k = []) : SymTable_remove t k = (t, 0) := by
  have hcc : chainContains (t.array.getD (SymTable_hash t.uiBuckets k) []) k = false := by
    cases hcc' : chainContains (t.array.getD (SymTable_hash t.uiBuckets k) []) k with
    | false => rfl
    | true =>
        have hc1 : SymTable_contains t k = 1 := by
          show (if chainContains _ _ then 1 else 0) = 1
          rw [hcc']
          rfl
        rw [contains_eq t ht k, if_pos h] at hc1
        simp at hc1
  rw [remove_eq, chainRemove_not_found _ k hcc]
  rfl

theorem remove_present (t : SymTable) (k : List Nat) (b : abind) (ht : Inv t)
    (h : keyBinds t k = [b]) :
    (SymTable_remove t k).2 = 1 ∧
    Inv (SymTable_remove t k).1 ∧
    (SymTable_remove t k).1.uiBindings + 1 = t.uiBindings ∧
    (SymTable_remove t k).1.uiBuckets = t.uiBuckets ∧
    keyBinds (SymTable_remove t k).1 k = [] ∧
    (∀ k', k' ≠ k → keyBinds (SymTable_remove t k).1 k' = keyBinds t k') := by
  have htI := ht
  obtain ⟨hlen0, hpos0, hsum0, hhash0, huniq0⟩ := ht
  have hbkb : b ∈ keyBinds t k := by rw [h]; exact List.mem_cons_self b []
  obtain ⟨hbf, hbk'⟩ := List.mem_filter.mp hbkb
  have hbk : b.key = k := by simpa using hbk'
  have hidx : SymTable_hash t.uiBuckets k < t.array.length := by
    rw [hlen0]
    exact hash_lt _ _ hpos0
  have hbbucket : b ∈ t.array.getD (SymTable_hash t.uiBuckets k) [] :=
    mem_bucket_of_key t htI b k hbf hbk
  have hcc : chainContains (t.array.getD (SymTable_hash t.uiBuckets k) []) k = true := by
    show (t.array.getD (SymTable_hash t.uiBuckets k) []).any (fun x => x.key == k) = true
    exact List.any_eq_true.mpr ⟨b, hbbucket, by simp [hbk]⟩
  obtain ⟨c₁, bm, c₂, hdec, hbm, _, hrem⟩ := chainRemove_found _ k hcc
  obtain ⟨pre, post, _, hadec, hset⟩ := set_decomp t.array (SymTable_hash t.uiBuckets k) [] hidx
  have hremove : SymTable_remove t k =
      ({ t with
          array := t.array.set (SymTable_hash t.uiBuckets k) (c₁ ++ c₂)
          uiBindings := t.uiBindings - 1 }, 1) := by
    rw [remove_eq, hrem]
    rfl
  have h1 : t.array.flatten = (pre.flatten ++ c₁) ++ bm :: (c₂ ++ post.flatten) := by
    conv_lhs => rw [hadec, hdec]
    simp [List.flatten_append, List.flatten_cons, List.append_assoc]
  have h2 : (t.array.set (SymTable_hash t.uiBuckets k) (c₁ ++ c₂)).flatten =
      (pre.flatten ++ c₁) ++ (c₂ ++ post.flatten) := by
    rw [hset (c₁ ++ c₂)]
    simp [List.flatten_append, List.flatten_cons, List.append_assoc]
  have hperm : List.Perm t.array.flatten
      (bm :: (t.array.set (SymTable_hash t.uiBuckets k) (c₁ ++ c₂)).flatten) := by
    rw [h1, h2]
    exact List.perm_middle
  have hlen' : (t.array.set (SymTable_hash t.uiBuckets k) (c₁ ++ c₂)).length =
      t.uiBuckets := by
    rw [List.length_set]
    exact hlen0
  have hsum' : t.uiBindings - 1 =
      ((t.array.set (SymTable_hash t.uiBuckets k) (c₁ ++ c₂)).map List.length).sum := by
    have e1 : t.array.flatten.length =
        (bm :: (t.array.set (SymTable_hash t.uiBuckets k) (c₁ ++ c₂)).flatten).length :=
      hperm.length_eq
    rw [List.length_cons] at e1
    have e2 := List.length_flatten t.array
    have e3 := List.length_flatten (t.array.set (SymTable_hash t.uiBuckets k) (c₁ ++ c₂))
    omega
  have hhash' : ∀ i ∈ List.range
      (t.array.set (SymTable_hash t.uiBuckets k) (c₁ ++ c₂)).length,
      ∀ x ∈ (t.array.set (SymTable_hash t.uiBuckets k) (c₁ ++ c₂)).getD i [],
        SymTable_hash t.uiBuckets x.key = i := by
    intro i hi x hx
    rw [List.mem_range, List.length_set] at hi
    by_cases hji : i = SymTable_hash t.uiBuckets k
    · rw [hji, getD_set_self _ _ _ _ hidx] at hx
      have hxb : x ∈ t.array.getD (SymTable_hash t.uiBuckets k) [] := by
        rw [hdec]
        rcases List.mem_append.mp hx with hx | hx
        · exact List.mem_append.mpr (Or.inl hx)
        · exact List.mem_append.mpr (Or.inr (List.mem_cons_of_mem bm hx))
      rw [hji]
      exact hhash0 _ (List.mem_range.mpr (by rw [← hji] at hidx ⊢; exact hi)) x hxb
    · rw [getD_set_ne _ _ _ _ _ hji] at hx
      exact hhash0 i (List.mem_range.mpr hi) x hx
  have hfiltercons : ∀ (p : abind → Bool) (l : List abind),
      (l.filter p).length ≤ ((bm :: l).filter p).length := by
    intro p l
    cases hpbm : p bm with
    | true => rw [List.filter_cons_of_pos hpbm]; simp
    | false => rw [List.filter_cons_of_neg (by simp [hpbm])]
  have huniq' : ∀ x ∈ (t.array.set (SymTable_hash t.uiBuckets k) (c₁ ++ c₂)).flatten,
      ((t.array.set (SymTable_hash t.uiBuckets k) (c₁ ++ c₂)).flatten.filter
        (fun y => y.key == x.key)).length ≤ 1 := by
    intro x hx
    have hxold : x ∈ t.array.flatten :=
      hperm.mem_iff.mpr (List.mem_cons_of_mem bm hx)
    refine le_trans (hfiltercons _ _) ?_
    rw [← (hperm.filter (fun y => y.key == x.key)).length_eq]
    exact huniq0 x hxold
  have hkbnil : (t.array.set (SymTable_hash t.uiBuckets k) (c₁ ++ c₂)).flatten.filter
      (fun y => y.key == k) = [] := by
    have hp := hperm.filter (fun y => y.key == k)
    rw [List.filter_cons_of_pos (by simp [hbm])] at hp
    have hlen1 : (t.array.flatten.filter (fun y => y.key == k)).length = 1 := by
      rw [← keyBinds_def, h]
      rfl
    have := hp.length_eq
    rw [hlen1, List.length_cons] at this
    have hz : ((t.array.set (SymTable_hash t.uiBuckets k) (c₁ ++ c₂)).flatten.filter
        (fun y => y.key == k)).length = 0 := by omega
    exact List.length_eq_zero.mp hz
  have hkbother : ∀ k', k' ≠ k →
      (t.array.set (SymTable_hash t.uiBuckets k) (c₁ ++ c₂)).flatten.filter
        (fun y => y.key == k') = t.array.flatten.filter (fun y => y.key == k') := by
    intro k' hk'
    have hp := hperm.filter (fun y => y.key == k')
    rw [List.filter_cons_of_neg (by
      intro hc
      exact hk' ((by simpa [hbm] using hc : k = k')).symm)] at hp
    exact (perm_eq_of_length_le_one hp (uniq_all t htI k')).symm
  rw [hremove]
  refine ⟨rfl, ⟨hlen', hpos0, hsum', hhash', huniq'⟩, ?_, rfl, hkbnil, ?_⟩
  · show t.uiBindings - 1 + 1 = t.uiBindings
    have hlen1 : (keyBinds t k).length = 1 := by rw [h]; rfl
    have hpos : 1 ≤ t.uiBindings := by
      rw [hsum0, ← List.length_flatten]
      have : b ∈ t.array.flatten := hbf
      have := List.length_pos.mpr (List.ne_nil_of_mem this)
      omega
    omega
  · intro k' hk'
    exact hkbother k' hk'

/- ==== every reachable state satisfies the invariant ==== -/

theorem contains_zero_iff (t : SymTable) (ht : Inv t) (k : List Nat) :
    SymTable_contains t k = 0 ↔ keyBinds t k = [] := by
  rw [contains_eq t ht k]
  by_cases hkb : keyBinds t k = []
  · rw [if_pos hkb]
    exact ⟨fun _ => hkb, fun _ => rfl⟩
  · rw [if_neg hkb]
    exact ⟨fun hc => by simp at hc, fun hc => absurd hc hkb⟩

theorem keyBinds_singleton (t : SymTable) (ht : Inv t) (k : List Nat)
    (h : keyBinds t k ≠ []) : ∃ b, keyBinds t k = [b] := by
  cases hkb : keyBinds t k with
  | nil => exact absurd hkb h
  | cons b rest =>
      have hle := uniq_all t ht k
      rw [hkb] at hle
      cases rest with
      | nil => exact ⟨b, rfl⟩
      | cons c cs => simp at hle

theorem reachable_spec (t : SymTable) (h : Reachable t) :
    Inv t ∧ t.uiBuckets ∈ BUCKARR ∧
    (t.uiBindings ≤ t.uiBuckets ∨ t.uiBuckets = MAX_BUCKETS) := by
  induction h with
  | new => exact ⟨inv_new, by decide, Or.inl (by decide)⟩
  | put t k v hr ih =>
      obtain ⟨hI, hmem, hload⟩ := ih
      by_cases hc : SymTable_contains t k ≠ 0
      · rw [put_dup t k v hc]
        exact ⟨hI, hmem, hload⟩
      · have hc0 : SymTable_contains t k = 0 := Decidable.not_not.mp hc
        have hfresh : keyBinds t k = [] := (contains_zero_iff t hI k).mp hc0
        obtain ⟨_, hI', hbind', hbuck', _, _, _⟩ := put_spec t k v hI hfresh
        refine ⟨hI', ?_, ?_⟩
        · rw [hbuck']
          exact growScan_mem _ _ _ hmem BUCKARR_tail_subset
        · rw [hbind', hbuck']
          rcases growScan_spec t.uiBindings (BUCKARR.drop 1) t.uiBuckets
            (List.mem_cons_of_mem _ max_mem_tail) with hlt | hmax
          · exact Or.inl hlt
          · exact Or.inr hmax
  | remove t k hr ih =>
      obtain ⟨hI, hmem, hload⟩ := ih
      cases hkb : keyBinds t k with
      | nil =>
          rw [remove_absent t k hI hkb]
          exact ⟨hI, hmem, hload⟩
      | cons b rest =>
          have hrest : rest = [] := by
            have hle := uniq_all t hI k
            rw [hkb] at hle
            cases rest with
            | nil => rfl
            | cons c cs => simp at hle
          rw [hrest] at hkb
          obtain ⟨_, hI', hbind', hbuck', _, _⟩ := remove_present t k b hI hkb
          refine ⟨hI', by rw [hbuck']; exact hmem, ?_⟩
          rw [hbuck']
          rcases hload with h1 | h1
          · exact Or.inl (by omega)
          · exact Or.inr h1
  | mid t hr ih =>
      obtain ⟨hI, hmem, _⟩ := ih
      have hpos : 0 < growScan t.uiBindings t.uiBuckets (BUCKARR.drop 1) := by
        refine growScan_pos _ _ _ hI.2.1 ?_
        intro x hx
        exact BUCKARR_pos x (BUCKARR_tail_subset x hx)
      obtain ⟨hI', hbind', hbuck', _, _⟩ := change_spec t _ hI hpos
      refine ⟨hI', ?_, ?_⟩
      · rw [hbuck']
        exact growScan_mem _ _ _ hmem BUCKARR_tail_subset
      · rw [hbind', hbuck']
        rcases growScan_spec t.uiBindings (BUCKARR.drop 1) t.uiBuckets
          (List.mem_cons_of_mem _ max_mem_tail) with hlt | hmax
        · exact Or.inl (Nat.le_of_lt hlt)
        · exact Or.inr hmax

/- ==== folding a list of insertions ==== -/

theorem putList_nil (t : SymTable) : putList t [] = t := rfl

theorem putList_cons (t : SymTable) (kv : List Nat × Nat)
    (kvs : List (List Nat × Nat)) :
    putList t (kv :: kvs) = putList (SymTable_put t kv.1 kv.2).1 kvs := rfl

theorem putList_reachable :
    ∀ (kvs : List (List Nat × Nat)) (t : SymTable),
      Reachable t → Reachable (putList t kvs) := by
  intro kvs
  induction kvs with
  | nil => intro t h; exact h
  | cons kv kvs ih =>
      intro t h
      rw [putList_cons]
      exact ih _ (Reachable.put t kv.1 kv.2 h)

theorem putList_spec :
    ∀ (kvs : List (List Nat × Nat)) (t : SymTable), Inv t →
      (kvs.map Prod.fst).Nodup →
      (∀ kv ∈ kvs, keyBinds t kv.1 = []) →
      Inv (putList t kvs) ∧
      (putList t kvs).uiBindings = t.uiBindings + kvs.length ∧
      (∀ kv ∈ kvs, keyBinds (putList t kvs) kv.1 = [⟨kv.1, kv.2⟩]) ∧
      (∀ k', (∀ kv ∈ kvs, kv.1 ≠ k') →
        keyBinds (putList t kvs) k' = keyBinds t k') := by
  intro kvs
  induction kvs with
  | nil =>
      intro t ht _ _
      exact ⟨ht, by simp [putList_nil], by simp, fun k' _ => rfl⟩
  | cons kv kvs ih =>
      intro t ht hnd hfresh
      have hfresh0 : keyBinds t kv.1 = [] := hfresh kv (List.mem_cons_self kv kvs)
      obtain ⟨_, hI1, hbind1, _, hkbk1, hkbo1, _⟩ := put_spec t kv.1 kv.2 ht hfresh0
      have hnd2 : (kv.1 :: kvs.map Prod.fst).Nodup := hnd
      have hhead : kv.1 ∉ kvs.map Prod.fst := (List.nodup_cons.mp hnd2).1
      have hnd' : (kvs.map Prod.fst).Nodup := (List.nodup_cons.mp hnd2).2
      have hne : ∀ kv' ∈ kvs, kv'.1 ≠ kv.1 := by
        intro kv' hkv' he
        exact hhead (by rw [← he]; exact List.mem_map_of_mem Prod.fst hkv')
      have hfresh' : ∀ kv' ∈ kvs, keyBinds (SymTable_put t kv.1 kv.2).1 kv'.1 = [] := by
        intro kv' hkv'
        rw [hkbo1 kv'.1 (hne kv' hkv')]
        exact hfresh kv' (List.mem_cons_of_mem kv hkv')
      obtain ⟨hI', hbind', hkbk', hkbo'⟩ := ih _ hI1 hnd' hfresh'
      refine ⟨by rw [putList_cons]; exact hI', ?_, ?_, ?_⟩
      · rw [putList_cons, hbind', hbind1, List.length_cons]
        omega
      · intro kv' hkv'
        rcases List.mem_cons.mp hkv' with he | hm
        · rw [putList_cons, he, hkbo' kv.1 hne]
          exact hkbk1
        · rw [putList_cons]
          exact hkbk' kv' hm
      · intro k' hk'
        rw [putList_cons,
          hkbo' k' (fun kv'' h'' => hk' kv'' (List.mem_cons_of_mem kv h'')),
          hkbo1 k' (hk' kv (List.mem_cons_self kv kvs)).symm]

theorem putList_buckets_below :
    ∀ (kvs : List (List Nat × Nat)) (t : SymTable), Inv t →
      (kvs.map Prod.fst).Nodup →
      (∀ kv ∈ kvs, keyBinds t kv.1 = []) →
      t.uiBindings + kvs.length ≤ t.uiBuckets →
      (putList t kvs).uiBuckets = t.uiBuckets := by
  intro kvs
  induction kvs with
  | nil => intro t _ _ _ _; rfl
  | cons kv kvs ih =>
      intro t ht hnd hfresh hbound
      have hfresh0 : keyBinds t kv.1 = [] := hfresh kv (List.mem_cons_self kv kvs)
      obtain ⟨_, hI1, hbind1, hbuck1, _, hkbo1, _⟩ := put_spec t kv.1 kv.2 ht hfresh0
      have hlt : t.uiBindings < t.uiBuckets := by
        rw [List.length_cons] at hbound
        omega
      have hng : growScan t.uiBindings t.uiBuckets (BUCKARR.drop 1) = t.uiBuckets :=
        growScan_no_grow t.uiBindings t.uiBuckets _ hlt
      have hbuck1' : (SymTable_put t kv.1 kv.2).1.uiBuckets = t.uiBuckets := by
        rw [hbuck1, hng]
      have hnd2 : (kv.1 :: kvs.map Prod.fst).Nodup := hnd
      have hhead : kv.1 ∉ kvs.map Prod.fst := (List.nodup_cons.mp hnd2).1
      have hnd' : (kvs.map Prod.fst).Nodup := (List.nodup_cons.mp hnd2).2
      have hne : ∀ kv' ∈ kvs, kv'.1 ≠ kv.1 := by
        intro kv' hkv' he
        exact hhead (by rw [← he]; exact List.mem_map_of_mem Prod.fst hkv')
      have hfresh' : ∀ kv' ∈ kvs, keyBinds (SymTable_put t kv.1 kv.2).1 kv'.1 = [] := by
        intro kv' hkv'
        rw [hkbo1 kv'.1 (hne kv' hkv')]
        exact hfresh kv' (List.mem_cons_of_mem kv hkv')
      have hbound' : (SymTable_put t kv.1 kv.2).1.uiBindings + kvs.length ≤
          (SymTable_put t kv.1 kv.2).1.uiBuckets := by
        rw [hbind1, hbuck1']
        rw [List.length_cons] at hbound
        omega
      rw [putList_cons, ih _ hI1 hnd' hfresh' hbound', hbuck1']

/- ==== the 519-insertion table ==== -/

theorem kvs519_map_fst : kvs519.map Prod.fst =
    (List.range 519).map (fun n => [1 + n / 256, 1 + n % 256]) := by
  rw [show kvs519 =
    (List.range 519).map (fun n => ([1 + n / 256, 1 + n % 256], 0)) from rfl,
    List.map_map]
  rfl

theorem kvs519_fst_nodup : (kvs519.map Prod.fst).Nodup := by
  rw [kvs519_map_fst]
  refine (List.nodup_range 519).map ?_
  intro a b hab
  simp only [List.cons.injEq, and_true] at hab
  omega

theorem kvs519_length : kvs519.length = 519 := by
  rw [show kvs519 =
    (List.range 519).map (fun n => ([1 + n / 256, 1 + n % 256], 0)) from rfl,
    List.length_map, List.length_range]

theorem kvs519_fresh : ∀ kv ∈ kvs519, keyBinds SymTable_new kv.1 = [] :=
  fun kv _ => keyBinds_new kv.1

theorem t519_reachable : Reachable t519 :=
  putList_reachable kvs519 SymTable_new Reachable.new

theorem t519_counts : t519.uiBindings = 519 ∧ t519.uiBuckets = 519 := by
  obtain ⟨_, hbind, _, _⟩ :=
    putList_spec kvs519 SymTable_new inv_new kvs519_fst_nodup kvs519_fresh
  have hbuck := putList_buckets_below kvs519 SymTable_new inv_new
    kvs519_fst_nodup kvs519_fresh (by rw [kvs519_length]; decide)
  constructor
  · show (putList SymTable_new kvs519).uiBindings = 519
    rw [hbind, kvs519_length]
    rfl
  · show (putList SymTable_new kvs519).uiBuckets = 519
    rw [hbuck]
    rfl

theorem kvs519_keys_short : ∀ kv ∈ kvs519, kv.1 ≠ [7, 7, 7] := by
  intro kv hkv he
  obtain ⟨n, _, heq⟩ := List.mem_map.mp hkv
  rw [← heq] at he
  have hlen := congrArg List.length he
  simp at hlen

theorem t519_fresh_key : keyBinds t519 [7, 7, 7] = [] := by
  obtain ⟨_, _, _, hkbo⟩ :=
    putList_spec kvs519 SymTable_new inv_new kvs519_fst_nodup kvs519_fresh
  show keyBinds (putList SymTable_new kvs519) [7, 7, 7] = []
  rw [hkbo [7, 7, 7] kvs519_keys_short, keyBinds_new]

theorem t519_contains_fresh : SymTable_contains t519 [7, 7, 7] = 0 := by
  obtain ⟨hI, _, _⟩ := reachable_spec t519 t519_reachable
  exact (contains_zero_iff t519 hI [7, 7, 7]).mpr t519_fresh_key

/- ==== the claims ==== -/

/-- C1: for every sequence of pairwise-distinct keys k1..kn with arbitrary
values v1..vn, after inserting all pairs into a freshly created table with
SymTable_put, SymTable_get ki returns vi for every i and SymTable_getLength
returns n. -/
theorem C1_round_trip (kvs : List (List Nat × Nat))
    (hdist : (kvs.map Prod.fst).Nodup) :
    (∀ kv ∈ kvs, SymTable_get (putList SymTable_new kvs) kv.1 = kv.2) ∧
    SymTable_getLength (putList SymTable_new kvs) = kvs.length := by
  obtain ⟨hI, hbind, hkbk, _⟩ :=
    putList_spec kvs SymTable_new inv_new hdist (fun kv _ => keyBinds_new kv.1)
  constructor
  · intro kv hkv
    rw [get_eq _ hI kv.1, hkbk kv hkv]
    rfl
  · show (putList SymTable_new kvs).uiBindings = kvs.length
    rw [hbind]
    show 0 + kvs.length = kvs.length
    omega

/-- Witness for C1 at the concrete input [(key [1], 5), (key [2], 0)]. -/
theorem C1_round_trip_witness :
    ((([([1], 5), ([2], 0)] : List (List Nat × Nat)).map Prod.fst).Nodup) ∧
    ((∀ kv ∈ ([([1], 5), ([2], 0)] : List (List Nat × Nat)),
        SymTable_get (putList SymTable_new [([1], 5), ([2], 0)]) kv.1 = kv.2) ∧
      SymTable_getLength (putList SymTable_new [([1], 5), ([2], 0)]) = 2) :=
  ⟨by decide, C1_round_trip [([1], 5), ([2], 0)] (by decide)⟩

/-- C2 counterexample: after inserting 519 distinct keys (a reachable state),
bindingCount equals bucketCount (519) while bucketCount is not the maximum,
refuting "after every operation, bindingCount < bucketCount holds unless
bucketCount equals the maximum". -/
theorem C2_counterexample :
    Reachable t519 ∧
    ¬ (t519.uiBindings < t519.uiBuckets ∨ t519.uiBuckets = MAX_BUCKETS) := by
  refine ⟨t519_reachable, ?_⟩
  obtain ⟨hbind, hbuck⟩ := t519_counts
  rw [hbind, hbuck]
  decide

/-- C2 (amended): the growth trigger compares the binding count before the
insertion with the bucket count: when a put inserts a new binding while
bindingCount >= bucketCount and bucketCount is below the maximum (65521),
the table advances to the next size in the fixed bucket-size table BUCKARR
(the entry right after the current bucket count, which is strictly larger)
and the new node is linked in the bucket given by the hash under that new
count; consequently, after every operation, bindingCount <= bucketCount
(equality is possible) holds unless bucketCount equals the maximum. -/
theorem C2_growth_policy (t : SymTable) (h : Reachable t) :
    (∀ k v, SymTable_contains t k = 0 → t.uiBuckets ≤ t.uiBindings →
      t.uiBuckets ≠ MAX_BUCKETS →
      ∃ i, i + 1 < BUCKARR.length ∧ BUCKARR.getD i 0 = t.uiBuckets ∧
        (SymTable_put t k v).1.uiBuckets = BUCKARR.getD (i + 1) 0 ∧
        t.uiBuckets < (SymTable_put t k v).1.uiBuckets ∧
        (⟨k, v⟩ : abind) ∈ (SymTable_put t k v).1.array.getD
          (SymTable_hash (SymTable_put t k v).1.uiBuckets k) []) ∧
    (t.uiBindings ≤ t.uiBuckets ∨ t.uiBuckets = MAX_BUCKETS) := by
  obtain ⟨hI, hmem, hload⟩ := reachable_spec t h
  refine ⟨?_, hload⟩
  intro k v hc0 hge hnmax
  have hfresh : keyBinds t k = [] := (contains_zero_iff t hI k).mp hc0
  obtain ⟨_, _, _, hbuck', _, _, hmem'⟩ := put_spec t k v hI hfresh
  have heq : t.uiBindings = t.uiBuckets := by
    rcases hload with h1 | h1
    · omega
    · exact absurd h1 hnmax
  obtain ⟨i, hilt, hieq, hgs, hlt⟩ := growScan_next t.uiBuckets hmem hnmax
  have hbuckets : (SymTable_put t k v).1.uiBuckets = BUCKARR.getD (i + 1) 0 := by
    rw [hbuck', heq, hgs]
  refine ⟨i, hilt, hieq, hbuckets, ?_, hmem'⟩
  rw [hbuckets]
  exact hlt

/-- Witness for C2 (amended) at the 519-binding, 519-bucket table (the
trigger state) with the fresh key [7, 7, 7]: the put advances the table to
the next size, 1021. -/
theorem C2_growth_policy_witness :
    Reachable t519 ∧
    SymTable_contains t519 [7, 7, 7] = 0 ∧
    t519.uiBuckets ≤ t519.uiBindings ∧
    t519.uiBuckets ≠ MAX_BUCKETS ∧
    (∃ i, i + 1 < BUCKARR.length ∧ BUCKARR.getD i 0 = t519.uiBuckets ∧
      (SymTable_put t519 [7, 7, 7] 5).1.uiBuckets = BUCKARR.getD (i + 1) 0 ∧
      t519.uiBuckets < (SymTable_put t519 [7, 7, 7] 5).1.uiBuckets ∧
      (⟨[7, 7, 7], 5⟩ : abind) ∈ (SymTable_put t519 [7, 7, 7] 5).1.array.getD
        (SymTable_hash (SymTable_put t519 [7, 7, 7] 5).1.uiBuckets [7, 7, 7]) []) ∧
    (t519.uiBindings ≤ t519.uiBuckets ∨ t519.uiBuckets = MAX_BUCKETS) := by
  have hge : t519.uiBuckets ≤ t519.uiBindings := by
    rw [t519_counts.1, t519_counts.2]
  have hnmax : t519.uiBuckets ≠ MAX_BUCKETS := by
    rw [t519_counts.2]
    decide
  obtain ⟨hgrow, hload⟩ := C2_growth_policy t519 t519_reachable
  exact ⟨t519_reachable, t519_contains_fresh, hge, hnmax,
    hgrow [7, 7, 7] 5 t519_contains_fresh hge hnmax, hload⟩

/-- C3: for every consistent table and every resize to a bucket count from
the fixed size table at least as large as the current one, the table after
SymTable_change is equal as a key-to-value map to the table before it: the
bindings of every key are unchanged (no binding lost or duplicated),
bindingCount is unchanged, and SymTable_get and SymTable_contains give the
same answers for every key. -/
theorem C3_resize_transparency (t : SymTable) (b : Nat) (ht : Inv t)
    (hb : b ∈ BUCKARR) (_hle : t.uiBuckets ≤ b) :
    (SymTable_change t b).uiBindings = t.uiBindings ∧
    (∀ k, keyBinds (SymTable_change t b) k = keyBinds t k) ∧
    (∀ k, SymTable_get (SymTable_change t b) k = SymTable_get t k) ∧
    (∀ k, SymTable_contains (SymTable_change t b) k = SymTable_contains t k) := by
  have hpos : 0 < b := BUCKARR_pos b hb
  obtain ⟨hI', hbind, _, _, hkb⟩ := change_spec t b ht hpos
  refine ⟨hbind, hkb, ?_, ?_⟩
  · intro k
    rw [get_eq _ hI' k, get_eq t ht k, hkb k]
  · intro k
    rw [contains_eq _ hI' k, contains_eq t ht k, hkb k]

/-- Witness for C3: growing the one-binding table from 1 bucket to 1021. -/
theorem C3_resize_transparency_witness :
    Inv tinyT ∧ 1021 ∈ BUCKARR ∧ tinyT.uiBuckets ≤ 1021 ∧
    ((SymTable_change tinyT 1021).uiBindings = tinyT.uiBindings ∧
      (∀ k, keyBinds (SymTable_change tinyT 1021) k = keyBinds tinyT k) ∧
      (∀ k, SymTable_get (SymTable_change tinyT 1021) k = SymTable_get tinyT k) ∧
      (∀ k, SymTable_contains (SymTable_change tinyT 1021) k =
        SymTable_contains tinyT k)) :=
  ⟨by decide, by decide, by decide,
    C3_resize_transparency tinyT 1021 (by decide) (by decide) (by decide)⟩

/-- C4: every reachable table state satisfies the three structural
invariants: bindingCount equals the sum of chain lengths over all buckets,
every binding in bucket i hashes under the current bucket count to index i,
and at most one binding exists per distinct key. -/
theorem C4_invariants (t : SymTable) (h : Reachable t) :
    t.uiBindings = (t.array.map List.length).sum ∧
    (∀ i ∈ List.range t.array.length, ∀ b ∈ t.array.getD i [],
      SymTable_hash t.uiBuckets b.key = i) ∧
    (∀ k, (t.array.flatten.filter (fun b => b.key == k)).length ≤ 1) := by
  obtain ⟨hI, _, _⟩ := reachable_spec t h
  refine ⟨hI.2.2.1, hI.2.2.2.1, ?_⟩
  intro k
  exact uniq_all t hI k

/-- Witness for C4 at the fresh table. -/
theorem C4_invariants_witness :
    Reachable SymTable_new ∧
    (SymTable_new.uiBindings = (SymTable_new.array.map List.length).sum ∧
      (∀ i ∈ List.range SymTable_new.array.length,
        ∀ b ∈ SymTable_new.array.getD i [],
          SymTable_hash SymTable_new.uiBuckets b.key = i) ∧
      (∀ k, (SymTable_new.array.flatten.filter
        (fun b => b.key == k)).length ≤ 1)) :=
  ⟨Reachable.new, C4_invariants SymTable_new Reachable.new⟩

/-- C5: for every consistent table and key: if a binding with that key is
present, SymTable_remove returns 1, decreases SymTable_getLength by exactly
1, and afterwards SymTable_contains is 0; if absent, SymTable_remove
returns 0 and the length is unchanged. -/
theorem C5_remove_correct (t : SymTable) (k : List Nat) (ht : Inv t) :
    (SymTable_contains t k = 1 →
      (SymTable_remove t k).2 = 1 ∧
      SymTable_getLength (SymTable_remove t k).1 + 1 = SymTable_getLength t ∧
      SymTable_contains (SymTable_remove t k).1 k = 0) ∧
    (SymTable_contains t k = 0 →
      (SymTable_remove t k).2 = 0 ∧
      SymTable_getLength (SymTable_remove t k).1 = SymTable_getLength t) := by
  constructor
  · intro h1
    have hne : keyBinds t k ≠ [] := by
      intro hnil
      rw [contains_eq t ht k, if_pos hnil] at h1
      simp at h1
    obtain ⟨b, hb⟩ := keyBinds_singleton t ht k hne
    obtain ⟨hret, hI', hbind, _, hkbnil, _⟩ := remove_present t k b ht hb
    refine ⟨hret, hbind, ?_⟩
    rw [contains_eq _ hI' k, if_pos hkbnil]
  · intro h0
    have hnil := (contains_zero_iff t ht k).mp h0
    rw [remove_absent t k ht hnil]
    exact ⟨rfl, rfl⟩

/-- Witness for C5 at the one-binding table and its key. -/
theorem C5_remove_correct_witness :
    Inv tinyT ∧
    ((SymTable_contains tinyT [1] = 1 →
        (SymTable_remove tinyT [1]).2 = 1 ∧
        SymTable_getLength (SymTable_remove tinyT [1]).1 + 1 =
          SymTable_getLength tinyT ∧
        SymTable_contains (SymTable_remove tinyT [1]).1 [1] = 0) ∧
      (SymTable_contains tinyT [1] = 0 →
        (SymTable_remove tinyT [1]).2 = 0 ∧
        SymTable_getLength (SymTable_remove tinyT [1]).1 =
          SymTable_getLength tinyT)) :=
  ⟨by decide, C5_remove_correct tinyT [1] (by decide)⟩

/-- C6: putting a key that is already bound returns 0 and leaves the entire
table state (bucket count, binding count, every bucket chain, and the bound
value) exactly as before. -/
theorem C6_duplicate_put (t : SymTable) (k : List Nat) (v : Nat)
    (h : SymTable_contains t k = 1) :
    SymTable_put t k v = (t, 0) :=
  put_dup t k v (by rw [h]; exact one_ne_zero)

/-- Witness for C6 at the one-binding table. -/
theorem C6_duplicate_put_witness :
    SymTable_contains tinyT [1] = 1 ∧ SymTable_put tinyT [1] 99 = (tinyT, 0) :=
  ⟨by decide, C6_duplicate_put tinyT [1] 99 (by decide)⟩

/-- C7: for every positive bucket count and every key, SymTable_hash equals
the reference definition (polynomial accumulation with multiplier 65599
under 32-bit unsigned wraparound, reduced modulo the bucket count) and its
result lies in the interval from 0 up to the bucket count. -/
theorem C7_hash_reference (uiBuckets : Nat) (pcKey : List Nat)
    (h : 0 < uiBuckets) :
    SymTable_hash uiBuckets pcKey = hashSpec uiBuckets pcKey ∧
    SymTable_hash uiBuckets pcKey < uiBuckets := by
  constructor
  · show (pcKey.foldl (fun h c => (h * HASH_MULTIPLIER + c) % UINT_MOD) 0) %
      uiBuckets = hashSpecAccum 0 pcKey % uiBuckets
    rw [foldl_eq_hashSpecAccum]
  · exact hash_lt _ _ h

/-- Witness for C7 at bucket count 519 and key [10, 20]. -/
theorem C7_hash_reference_witness :
    0 < 519 ∧
    (SymTable_hash 519 [10, 20] = hashSpec 519 [10, 20] ∧
      SymTable_hash 519 [10, 20] < 519) :=
  ⟨by decide, C7_hash_reference 519 [10, 20] (by decide)⟩

/-- C8 counterexample: in the table holding key [1] with a NULL value,
SymTable_get returns 0 (NULL) both for the present key [1] and for the
absent key [2] — so the "absent" result is not distinguishable from a
stored null value reference. -/
theorem C8_counterexample :
    SymTable_contains tNull [1] = 1 ∧ SymTable_get tNull [1] = 0 ∧
    SymTable_contains tNull [2] = 0 ∧ SymTable_get tNull [2] = 0 := by
  decide

/-- C8 (amended): SymTable_get returns the stored value reference when a
binding exists and NULL (0) when none does; NULL is therefore
distinguishable from every non-null stored value, but a stored null value
reference is indistinguishable from absence through SymTable_get alone. -/
theorem C8_get_absent (t : SymTable) (k : List Nat) (ht : Inv t) :
    (keyBinds t k = [] → SymTable_get t k = 0) ∧
    (∀ b, keyBinds t k = [b] → SymTable_get t k = b.value) := by
  constructor
  · intro h
    rw [get_eq t ht k, h]
    rfl
  · intro b h
    rw [get_eq t ht k, h]
    rfl

/-- Witness for C8 (amended) at the one-binding table. -/
theorem C8_get_absent_witness :
    Inv tinyT ∧
    ((keyBinds tinyT [1] = [] → SymTable_get tinyT [1] = 0) ∧
      (∀ b, keyBinds tinyT [1] = [b] → SymTable_get tinyT [1] = b.value)) :=
  ⟨by decide, C8_get_absent tinyT [1] (by decide)⟩

set_option maxRecDepth 8000 in
/-- C9 counterexample: SymTable_stats always performs the weighted-average
division; on the freshly created (empty) table the divisor
nonEmptyBucketCount it divides by is 0 — there is no guard or skip. -/
theorem C9_counterexample :
    SymTable_new.uiBindings = 0 ∧ statsDivisor SymTable_new = 0 := by
  constructor
  · rfl
  · show (List.replicate MIN_BUCKETS ([] : List abind)).countP
      (fun c => !c.isEmpty) = 0
    apply List.countP_eq_zero.mpr
    intro c hc
    rw [List.eq_of_mem_replicate hc]
    simp

/-- C9 (amended): SymTable_stats performs the division
bindingCount / nonEmptyBucketCount unconditionally; its divisor is zero
exactly when the table is empty, and then the numerator is also 0, so the
IEEE float result printed is NaN (0.0f / 0.0f) rather than a division
guarded or skipped. -/
theorem C9_stats_division (t : SymTable) (ht : Inv t) :
    statsNumerator t = t.uiBindings ∧
    (statsDivisor t = 0 ↔ t.uiBindings = 0) := by
  refine ⟨rfl, ?_⟩
  show t.array.countP (fun c => !c.isEmpty) = 0 ↔ t.uiBindings = 0
  obtain ⟨_, _, hsum, _, _⟩ := ht
  rw [hsum]
  constructor
  · intro h0
    have hall := List.countP_eq_zero.mp h0
    apply List.sum_eq_zero_iff.mpr
    intro x hx
    obtain ⟨c, hc, hxc⟩ := List.mem_map.mp hx
    have hce : c = [] := by
      have hne := hall c hc
      simpa [List.isEmpty_iff] using hne
    rw [← hxc, hce]
    rfl
  · intro h0
    apply List.countP_eq_zero.mpr
    intro c hc
    have hlen : c.length = 0 :=
      List.sum_eq_zero_iff.mp h0 c.length (List.mem_map_of_mem List.length hc)
    rw [List.length_eq_zero.mp hlen]
    simp

/-- Witness for C9 (amended) at the one-binding table. -/
theorem C9_stats_division_witness :
    Inv tinyT ∧
    (statsNumerator tinyT = tinyT.uiBindings ∧
      (statsDivisor tinyT = 0 ↔ tinyT.uiBindings = 0)) :=
  ⟨by decide, C9_stats_division tinyT (by decide)⟩

/-- C10: the empty string is an ordinary key: its hash is 0 for every
bucket count, and after a successful SymTable_put of the empty key,
SymTable_contains returns 1, SymTable_get returns the stored value, and the
binding sits in bucket 0. -/
theorem C10_empty_key (t : SymTable) (v : Nat) (ht : Inv t)
    (hfree : SymTable_contains t [] = 0) :
    (∀ b, SymTable_hash b [] = 0) ∧
    (SymTable_put t [] v).2 = 1 ∧
    SymTable_contains (SymTable_put t [] v).1 [] = 1 ∧
    SymTable_get (SymTable_put t [] v).1 [] = v ∧
    (⟨[], v⟩ : abind) ∈ (SymTable_put t [] v).1.array.getD 0 [] := by
  have hfresh : keyBinds t [] = [] := (contains_zero_iff t ht []).mp hfree
  obtain ⟨hret, hI', _, _, hkbk, _, hmem⟩ := put_spec t [] v ht hfresh
  refine ⟨fun b => hash_nil b, hret, ?_, ?_, ?_⟩
  · rw [contains_eq _ hI' [], if_neg (by rw [hkbk]; simp)]
  · rw [get_eq _ hI' [], hkbk]
    rfl
  · have hmem' := hmem
    rw [hash_nil] at hmem'
    exact hmem'

/-- Witness for C10 at the one-binding table (which does not contain the
empty key) and value 42. -/
theorem C10_empty_key_witness :
    Inv tinyT ∧ SymTable_contains tinyT [] = 0 ∧
    ((∀ b, SymTable_hash b [] = 0) ∧
      (SymTable_put tinyT [] 42).2 = 1 ∧
      SymTable_contains (SymTable_put tinyT [] 42).1 [] = 1 ∧
      SymTable_get (SymTable_put tinyT [] 42).1 [] = 42 ∧
      (⟨[], 42⟩ : abind) ∈ (SymTable_put tinyT [] 42).1.array.getD 0 []) :=
  ⟨by decide, by decide, C10_empty_key tinyT 42 (by decide) (by decide)⟩

end SymTableHash
